import Mathlib

/-!
Shallow embedding of `film_contact_sheet_v2.py`: the grid layout, pagination,
cell mapping, orientation and file-discovery logic of the contact-sheet
generator, together with proofs of the specification's testable properties.

Modelling conventions:
* Python non-negative `int` values are `Nat`.
* Python `float` page geometry is modelled exactly over `ℚ`; the algorithms
  use only field operations and order comparisons on these quantities.
* A PIL image is modelled by its pixel size together with the net number of
  quarter turns applied to it, so that a rotation is observable even when it
  leaves a square image's dimensions unchanged.
* A directory entry is modelled by its stem and its extension (the Python
  `Path.suffix`); `glob` with a star-extension pattern matches exactly the
  entries whose suffix equals that extension, as on a case-sensitive
  filesystem, and `str.upper`/`str.lower`/string comparison are replicated
  at the ASCII level, which is exact for the extension strings involved.
-/

namespace ContactSheet

/-- Ceiling division on naturals: exact model of `math.ceil(n / k)` for
`k ≥ 1` (the program only ever divides positive counts). -/
def ceilDiv (n k : ℕ) : ℕ := (n + k - 1) / k

/-- Model of Python `range(start, stop, step)` for a non-negative step.
Python raises `ValueError` on `step = 0`; that case is modelled as `[]`
and is never reached by the claims (they assume `per_page ≥ 1`). -/
def pyRangeStep (start stop step : ℕ) : List ℕ :=
  if step = 0 then []
  else if start < stop then start :: pyRangeStep (start + step) stop step
  else []
termination_by stop - start
decreasing_by omega

/-- Embedding of `paginate(n, per_page)` from the source: one `(start, end)`
pair per loop iteration of `range(0, n, per_page)`, with exclusive `end`. -/
def paginate (n per_page : ℕ) : List (ℕ × ℕ) :=
  (pyRangeStep 0 n per_page).map (fun i => (i, min (i + per_page) n))

/-- Embedding of `index_to_cell(idx, rows, cols, order)` from the source,
including the final `else` branch that silently falls back to reading
order for any unrecognised `order` string. -/
def index_to_cell (idx rows cols : ℕ) (order : String) : ℕ × ℕ :=
  if order = "row-left-right" then (idx / cols, idx % cols)
  else if order = "film-bottom-up" then ((rows - 1) - idx % rows, idx / rows)
  else (idx / cols, idx % cols)

/-- An in-memory image: pixel dimensions plus the net number of quarter
turns applied so far, so that rotations are observable. -/
structure Img where
  width : ℕ
  height : ℕ
  quarterTurns : ℤ
deriving DecidableEq, Repr

/-- PIL `img.rotate(90, expand=True)`: swaps the dimensions, one more
counter-clockwise quarter turn. -/
def Img.rot90 (img : Img) : Img := ⟨img.height, img.width, img.quarterTurns + 1⟩

/-- PIL `img.rotate(-90, expand=True)`: swaps the dimensions, one more
clockwise quarter turn. -/
def Img.rotNeg90 (img : Img) : Img := ⟨img.height, img.width, img.quarterTurns - 1⟩

/-- Embedding of `unify_orientation(img, mode)` from the source. -/
def unify_orientation (img : Img) (mode : String) : Img :=
  if mode = "none" then img
  else
    if mode = "portrait" ∧ ¬ (img.width ≤ img.height) then img.rot90
    else if mode = "landscape" ∧ img.width ≤ img.height then img.rotNeg90
    else img

/-- Python `int()` applied to a rational: truncation toward zero. -/
def pyInt (q : ℚ) : ℤ := if 0 ≤ q then ⌊q⌋ else ⌈q⌉

/-- Embedding of the thumbnail-size computation in `draw_page`:
`scale = min(cell_w/iw, cell_h/ih)`, then
`(max(1, int(iw*scale)), max(1, int(ih*scale)))`. -/
def scaleFit (w h : ℕ) (cw ch : ℚ) : ℤ × ℤ :=
  (max 1 (pyInt ((w : ℚ) * min (cw / (w : ℚ)) (ch / (h : ℚ)))),
   max 1 (pyInt ((h : ℚ) * min (cw / (w : ℚ)) (ch / (h : ℚ)))))

/-- Cell extent along one axis, as computed in `choose_grid_auto` and
`draw_page`: `(usable - gap*(k-1)) / k` for `k` cells along that axis. -/
def cellW (usable gap : ℚ) (k : ℕ) : ℚ := (usable - gap * ((k : ℚ) - 1)) / (k : ℚ)

/-- Column count derived from a row count: `cols = math.ceil(n / rows)`. -/
def autoCols (n rows : ℕ) : ℕ := ceilDiv n rows

/-- A row count `r` is a valid candidate of the automatic grid search when it
lies in the search range, its derived column count respects the hard cap,
and both cell dimensions come out positive. -/
def isCand (n : ℕ) (uw uh gap : ℚ) (r : ℕ) : Prop :=
  1 ≤ r ∧ r ≤ min 15 n ∧ autoCols n r ≤ 30 ∧
    0 < cellW uw gap (autoCols n r) ∧ 0 < cellW uh gap r

instance (n : ℕ) (uw uh gap : ℚ) (r : ℕ) : Decidable (isCand n uw uh gap r) := by
  unfold isCand; exact inferInstance

/-- Cell area of the candidate with `r` rows. -/
def cellArea (n : ℕ) (uw uh gap : ℚ) (r : ℕ) : ℚ :=
  cellW uw gap (autoCols n r) * cellW uh gap r

/-- One iteration of the `for rows in range(1, min(15, n) + 1)` loop body of
`choose_grid_auto`, acting on the `(best, best_area)` state. -/
def autoStep (n : ℕ) (uw uh gap : ℚ) (st : (ℕ × ℕ) × ℚ) (r : ℕ) : (ℕ × ℕ) × ℚ :=
  if 30 < autoCols n r then st
  else if cellW uw gap (autoCols n r) ≤ 0 ∨ cellW uh gap r ≤ 0 then st
  else if st.2 < cellArea n uw uh gap r then ((r, autoCols n r), cellArea n uw uh gap r)
  else st

/-- Embedding of `choose_grid_auto(n, page_w_pt, page_h_pt, margin_pt, gap_pt)`:
fold of the search loop over rows `1..min(15, n)`, starting from the fallback
state `((1, n), -1)`, returning the final best `(rows, cols)`. -/
def choose_grid_auto (n : ℕ) (pw ph margin gap : ℚ) : ℕ × ℕ :=
  (((List.range' 1 (min 15 n)).foldl
      (autoStep n (pw - 2 * margin) (ph - 2 * margin) gap) ((1, n), -1))).1

/-- Python truthiness of an optional non-negative `int` argument: `None`
and `0` are falsy. -/
def truthy (o : Option ℕ) : Bool :=
  match o with
  | none => false
  | some k => decide (k ≠ 0)

/-- Embedding of the grid-selection `if/elif` chain in `main` (lines 270-279):
both given → used as-is; one given → the other derived by ceiling division;
neither (or zero, which is falsy) → automatic search. -/
def chooseGrid (n : ℕ) (rowsArg colsArg : Option ℕ) (pw ph margin gap : ℚ) : ℕ × ℕ :=
  if truthy rowsArg && truthy colsArg then (rowsArg.getD 0, colsArg.getD 0)
  else if truthy rowsArg && !truthy colsArg then (rowsArg.getD 0, ceilDiv n (rowsArg.getD 0))
  else if truthy colsArg && !truthy rowsArg then (ceilDiv n (colsArg.getD 0), colsArg.getD 0)
  else choose_grid_auto n pw ph margin gap

/-- A directory entry: stem plus extension, where `ext` plays the role of
the Python `Path.suffix` of the name (including the leading dot). -/
structure FileName where
  stem : String
  ext : String
deriving DecidableEq, Repr

/-- Full file name, the string Python's `sorted` compares. -/
def FileName.name (f : FileName) : String := f.stem ++ f.ext

/-- The supported extension set `IMG_EXTS`, listed in source-literal order;
Python iterates this `set` in an unspecified, hash-dependent order, so
`find_images` below is parameterised by the iteration order actually used. -/
def IMG_EXTS : List String := [".jpg", ".jpeg", ".png", ".tif", ".tiff", ".webp"]

/-- ASCII upper-casing of one character, as Python `str.upper` acts on
ASCII input. -/
def pyUpperChar (c : Char) : Char :=
  if 97 ≤ c.toNat ∧ c.toNat ≤ 122 then Char.ofNat (c.toNat - 32) else c

/-- ASCII lower-casing of one character, as Python `str.lower` acts on
ASCII input. -/
def pyLowerChar (c : Char) : Char :=
  if 65 ≤ c.toNat ∧ c.toNat ≤ 90 then Char.ofNat (c.toNat + 32) else c

/-- Python `s.upper()` restricted to ASCII strings (exact for the extension
strings the program manipulates). -/
def pyUpper (s : String) : String := String.mk (s.data.map pyUpperChar)

/-- Python `s.lower()` restricted to ASCII strings. -/
def pyLower (s : String) : String := String.mk (s.data.map pyLowerChar)

/-- Lexicographic comparison of character lists by code point, the order
Python string comparison uses. -/
def charsLt : List Char → List Char → Bool
  | [], [] => false
  | [], _ :: _ => true
  | _ :: _, [] => false
  | a :: as, b :: bs =>
    if a.toNat < b.toNat then true
    else if b.toNat < a.toNat then false
    else charsLt as bs

/-- Python string `<`. -/
def pyStrLt (a b : String) : Bool := charsLt a.data b.data

/-- Strict name order on directory entries, the comparison Python `sorted`
performs on paths. -/
def nameLt (a b : FileName) : Prop := pyStrLt a.name b.name = true

/-- Non-strict name order: `b` does not sort strictly before `a`; the order
in which a sorted listing is `Sorted`. -/
def nameLe (a b : FileName) : Prop := pyStrLt b.name a.name = false

instance : DecidableRel nameLt := fun a b => Bool.decEq (pyStrLt a.name b.name) true

/-- Python `sorted` over directory entries, comparing full names; stable
insertion sort matches `sorted` on the duplicate-free glob results. -/
def sortByName (l : List FileName) : List FileName :=
  l.insertionSort nameLt

/-- Embedding of `find_images(input_dir)`, parameterised by the iteration
order `extOrder` of the `IMG_EXTS` set and by the directory contents `dir`
(entries with distinct names): for each extension in iteration order, the
sorted lower-case glob matches then the sorted upper-case glob matches are
accumulated, and a second pass deduplicates while filtering on existence
and on a supported lower-cased suffix. -/
def find_images (extOrder : List String) (dir : List FileName) : List FileName :=
  ((extOrder.flatMap (fun ext =>
      sortByName (dir.filter (fun f => f.ext = ext)) ++
      sortByName (dir.filter (fun f => f.ext = pyUpper ext)))).foldl
    (fun acc p =>
      if p ∈ dir ∧ pyLower p.ext ∈ IMG_EXTS ∧ p ∉ acc.2
      then (acc.1 ++ [p], acc.2 ++ [p]) else acc)
    (([] : List FileName), ([] : List FileName))).1

section PaginateLemmas

lemma ceilDiv_eq_div_add_one (a p : ℕ) (ha : 0 < a) (hp : 0 < p) :
    ceilDiv a p = (a - 1) / p + 1 := by
  unfold ceilDiv
  have h : a + p - 1 = (a - 1) + p := by omega
  rw [h, Nat.add_div_right _ hp]

lemma ceilDiv_zero_left (p : ℕ) : ceilDiv 0 p = 0 := by
  unfold ceilDiv
  rcases Nat.eq_zero_or_pos p with h | h
  · simp [h]
  · exact Nat.div_eq_of_lt (by omega)

lemma ceilDiv_pos (a p : ℕ) (ha : 0 < a) (hp : 0 < p) : 0 < ceilDiv a p := by
  rw [ceilDiv_eq_div_add_one a p ha hp]; exact Nat.succ_pos _

lemma ceilDiv_sub_step (a p : ℕ) (ha : 0 < a) (hp : 0 < p) :
    ceilDiv a p = ceilDiv (a - p) p + 1 := by
  rcases le_or_lt a p with h | h
  · have h0 : a - p = 0 := by omega
    rw [h0, ceilDiv_zero_left, ceilDiv_eq_div_add_one a p ha hp,
      Nat.div_eq_of_lt (by omega)]
  · rw [ceilDiv_eq_div_add_one a p ha hp,
      ceilDiv_eq_div_add_one (a - p) p (by omega) hp]
    have h1 : a - 1 = (a - p - 1) + p := by omega
    rw [h1, Nat.add_div_right _ hp]

lemma pyRangeStep_eq (p : ℕ) (hp : 0 < p) :
    ∀ fuel s n, n - s ≤ fuel →
      pyRangeStep s n p =
        (List.range (ceilDiv (n - s) p)).map (fun i => s + i * p) := by
  intro fuel
  induction fuel with
  | zero =>
    intro s n h
    have hns : ¬ s < n := by omega
    have h0 : n - s = 0 := by omega
    rw [pyRangeStep, if_neg (by omega), if_neg hns, h0, ceilDiv_zero_left]
    simp
  | succ k ih =>
    intro s n h
    by_cases hsn : s < n
    · rw [pyRangeStep, if_neg (by omega), if_pos hsn,
        ih (s + p) n (by omega)]
      have harith : n - s - p = n - (s + p) := by omega
      rw [ceilDiv_sub_step (n - s) p (by omega) hp, harith,
        List.range_succ_eq_map]
      simp only [List.map_cons, List.map_map]
      refine congrArg₂ _ (by omega) (List.map_congr_left ?_)
      intro i _
      simp [Function.comp, Nat.succ_mul]
      ring
    · have h0 : n - s = 0 := by omega
      rw [pyRangeStep, if_neg (by omega), if_neg hsn, h0, ceilDiv_zero_left]
      simp

lemma paginate_eq (n p : ℕ) (hp : 0 < p) :
    paginate n p =
      (List.range (ceilDiv n p)).map (fun i => (i * p, min (i * p + p) n)) := by
  unfold paginate
  rw [pyRangeStep_eq p hp n 0 n (by omega)]
  simp [List.map_map, Function.comp]

lemma paginate_length (n p : ℕ) (hp : 0 < p) :
    (paginate n p).length = ceilDiv n p := by
  rw [paginate_eq n p hp]; simp

lemma paginate_getD (n p : ℕ) (hp : 0 < p) (i : ℕ) (hi : i < ceilDiv n p) :
    (paginate n p).getD i (0, 0) = (i * p, min (i * p + p) n) := by
  have hlen :
      i < ((List.range (ceilDiv n p)).map
        (fun i => (i * p, min (i * p + p) n))).length := by
    simpa using hi
  rw [paginate_eq n p hp, List.getD_eq_getElem _ _ hlen, List.getElem_map,
    List.getElem_range]

lemma mul_lt_of_lt_ceilDiv (n p i : ℕ) (hn : 0 < n) (hp : 0 < p)
    (hi : i < ceilDiv n p) : i * p < n := by
  rw [ceilDiv_eq_div_add_one n p hn hp] at hi
  have h1 : i ≤ (n - 1) / p := by omega
  have h2 : i * p ≤ ((n - 1) / p) * p := Nat.mul_le_mul_right p h1
  have h3 : ((n - 1) / p) * p ≤ n - 1 := Nat.div_mul_le_self _ _
  omega

lemma le_ceilDiv_mul (n p : ℕ) (hn : 0 < n) (hp : 0 < p) :
    n ≤ ceilDiv n p * p := by
  rw [ceilDiv_eq_div_add_one n p hn hp]
  have h1 : p * ((n - 1) / p) + (n - 1) % p = n - 1 := Nat.div_add_mod (n - 1) p
  have h2 : (n - 1) % p < p := Nat.mod_lt _ hp
  have h3 : ((n - 1) / p + 1) * p = (n - 1) / p * p + p := by ring
  have h4 : (n - 1) / p * p = p * ((n - 1) / p) := by ring
  omega

end PaginateLemmas

/-- C1: for `n ≥ 1` and `per_page ≥ 1`, `paginate n per_page` returns exactly
`⌈n/per_page⌉` half-open ranges; the first starts at 0, the last ends at `n`,
every range is nonempty, consecutive ranges are contiguous, earlier ranges
lie strictly before later ones (so they are in increasing order and pairwise
non-overlapping), every index below `n` is covered by some range, every range
except possibly the last has length `per_page`, and the last holds the
remainder `n - (pages - 1) * per_page`. -/
theorem paginate_pages_spec (n p : ℕ) (hn : 1 ≤ n) (hp : 1 ≤ p) :
    (paginate n p).length = ceilDiv n p ∧
    ((paginate n p).getD 0 (0, 0)).1 = 0 ∧
    ((paginate n p).getD (ceilDiv n p - 1) (0, 0)).2 = n ∧
    (∀ i, i < ceilDiv n p →
      ((paginate n p).getD i (0, 0)).1 < ((paginate n p).getD i (0, 0)).2) ∧
    (∀ i, i + 1 < ceilDiv n p →
      ((paginate n p).getD i (0, 0)).2 = ((paginate n p).getD (i + 1) (0, 0)).1) ∧
    (∀ i j, i < j → j < ceilDiv n p →
      ((paginate n p).getD i (0, 0)).2 ≤ ((paginate n p).getD j (0, 0)).1) ∧
    (∀ i, i + 1 < ceilDiv n p →
      ((paginate n p).getD i (0, 0)).2 - ((paginate n p).getD i (0, 0)).1 = p) ∧
    ((paginate n p).getD (ceilDiv n p - 1) (0, 0)).2
        - ((paginate n p).getD (ceilDiv n p - 1) (0, 0)).1
      = n - (ceilDiv n p - 1) * p ∧
    (∀ j, j < n → ∃ i, i < ceilDiv n p ∧
      ((paginate n p).getD i (0, 0)).1 ≤ j ∧
        j < ((paginate n p).getD i (0, 0)).2) := by
  have hp0 : 0 < p := hp
  have hn0 : 0 < n := hn
  have hcd : 0 < ceilDiv n p := ceilDiv_pos n p hn0 hp0
  have hlast : ceilDiv n p - 1 < ceilDiv n p := by omega
  have hlastD := paginate_getD n p hp0 _ hlast
  have hlast_end : min ((ceilDiv n p - 1) * p + p) n = n := by
    have h1 : n ≤ ceilDiv n p * p := le_ceilDiv_mul n p hn0 hp0
    have h2 : (ceilDiv n p - 1) * p + p = ceilDiv n p * p := by
      have h3 : ceilDiv n p - 1 + 1 = ceilDiv n p := by omega
      calc (ceilDiv n p - 1) * p + p = (ceilDiv n p - 1 + 1) * p := by ring
        _ = ceilDiv n p * p := by rw [h3]
    omega
  have hdivmem : ∀ j, j < n → j / p < ceilDiv n p := by
    intro j hj
    have h1 : j / p ≤ (n - 1) / p := Nat.div_le_div_right (by omega)
    rw [ceilDiv_eq_div_add_one n p hn0 hp0]
    omega
  refine ⟨paginate_length n p hp0, ?_, ?_, ?_, ?_, ?_, ?_, ?_, ?_⟩
  · rw [paginate_getD n p hp0 0 hcd]
    dsimp only
    omega
  · rw [hlastD]
    dsimp only
    exact hlast_end
  · intro i hi
    rw [paginate_getD n p hp0 i hi]
    have h1 := mul_lt_of_lt_ceilDiv n p i hn0 hp0 hi
    dsimp only
    omega
  · intro i hi
    rw [paginate_getD n p hp0 i (by omega), paginate_getD n p hp0 (i + 1) hi]
    have h1 := mul_lt_of_lt_ceilDiv n p (i + 1) hn0 hp0 hi
    have h2 : i * p + p = (i + 1) * p := by ring
    dsimp only
    omega
  · intro i j hij hj
    rw [paginate_getD n p hp0 i (by omega), paginate_getD n p hp0 j hj]
    have h1 : i * p + p = (i + 1) * p := by ring
    have h2 : (i + 1) * p ≤ j * p := Nat.mul_le_mul_right p (by omega)
    dsimp only
    omega
  · intro i hi
    rw [paginate_getD n p hp0 i (by omega)]
    have h1 := mul_lt_of_lt_ceilDiv n p (i + 1) hn0 hp0 hi
    have h2 : i * p + p = (i + 1) * p := by ring
    dsimp only
    omega
  · rw [hlastD]
    dsimp only
    rw [hlast_end]
  · intro j hj
    refine ⟨j / p, hdivmem j hj, ?_, ?_⟩
    · rw [paginate_getD n p hp0 (j / p) (hdivmem j hj)]
      exact Nat.div_mul_le_self j p
    · rw [paginate_getD n p hp0 (j / p) (hdivmem j hj)]
      have h1 : p * (j / p) + j % p = j := Nat.div_add_mod j p
      have h2 : j % p < p := Nat.mod_lt _ hp0
      have h3 : j / p * p = p * (j / p) := by ring
      dsimp only
      omega

/-- Witness for `paginate_pages_spec` at `n = 7`, `per_page = 3`. -/
theorem paginate_pages_spec_witness :
    1 ≤ 7 ∧ 1 ≤ 3 ∧
    ((paginate 7 3).length = ceilDiv 7 3 ∧
    ((paginate 7 3).getD 0 (0, 0)).1 = 0 ∧
    ((paginate 7 3).getD (ceilDiv 7 3 - 1) (0, 0)).2 = 7 ∧
    (∀ i, i < ceilDiv 7 3 →
      ((paginate 7 3).getD i (0, 0)).1 < ((paginate 7 3).getD i (0, 0)).2) ∧
    (∀ i, i + 1 < ceilDiv 7 3 →
      ((paginate 7 3).getD i (0, 0)).2 = ((paginate 7 3).getD (i + 1) (0, 0)).1) ∧
    (∀ i j, i < j → j < ceilDiv 7 3 →
      ((paginate 7 3).getD i (0, 0)).2 ≤ ((paginate 7 3).getD j (0, 0)).1) ∧
    (∀ i, i + 1 < ceilDiv 7 3 →
      ((paginate 7 3).getD i (0, 0)).2 - ((paginate 7 3).getD i (0, 0)).1 = 3) ∧
    ((paginate 7 3).getD (ceilDiv 7 3 - 1) (0, 0)).2
        - ((paginate 7 3).getD (ceilDiv 7 3 - 1) (0, 0)).1
      = 7 - (ceilDiv 7 3 - 1) * 3 ∧
    (∀ j, j < 7 → ∃ i, i < ceilDiv 7 3 ∧
      ((paginate 7 3).getD i (0, 0)).1 ≤ j ∧
        j < ((paginate 7 3).getD i (0, 0)).2)) :=
  ⟨by decide, by decide, paginate_pages_spec 7 3 (by decide) (by decide)⟩

section CellMapperLemmas

lemma index_to_cell_film (idx rows cols : ℕ) :
    index_to_cell idx rows cols "film-bottom-up"
      = ((rows - 1) - idx % rows, idx / rows) := rfl

lemma index_to_cell_rlr (idx rows cols : ℕ) :
    index_to_cell idx rows cols "row-left-right" = (idx / cols, idx % cols) := rfl

lemma index_to_cell_other (idx rows cols : ℕ) (order : String)
    (h1 : order ≠ "row-left-right") (h2 : order ≠ "film-bottom-up") :
    index_to_cell idx rows cols order = (idx / cols, idx % cols) := by
  unfold index_to_cell
  rw [if_neg h1, if_neg h2]

end CellMapperLemmas

/-- C2: for `rows ≥ 1` and `cols ≥ 1`, `index_to_cell` under
`"film-bottom-up"` computes `col = idx / rows` and
`row = (rows - 1) - idx % rows`, maps `[0, rows*cols)` into the grid,
is injective there and onto the whole grid (hence a bijection), and for
`rows = 3, cols = 2` sends `0,1,2` to `(2,0),(1,0),(0,0)` and `3,4,5` to
`(2,1),(1,1),(0,1)`. -/
theorem index_to_cell_film_bijection (rows cols : ℕ) (hr : 1 ≤ rows) (hc : 1 ≤ cols) :
    (∀ idx : ℕ, index_to_cell idx rows cols "film-bottom-up"
        = ((rows - 1) - idx % rows, idx / rows)) ∧
    (∀ idx, idx < rows * cols →
      (index_to_cell idx rows cols "film-bottom-up").1 < rows ∧
      (index_to_cell idx rows cols "film-bottom-up").2 < cols) ∧
    (∀ i, i < rows * cols → ∀ j, j < rows * cols →
      index_to_cell i rows cols "film-bottom-up"
          = index_to_cell j rows cols "film-bottom-up" → i = j) ∧
    (∀ r, r < rows → ∀ c, c < cols → ∃ idx, idx < rows * cols ∧
      index_to_cell idx rows cols "film-bottom-up" = (r, c)) ∧
    (index_to_cell 0 3 2 "film-bottom-up" = (2, 0) ∧
     index_to_cell 1 3 2 "film-bottom-up" = (1, 0) ∧
     index_to_cell 2 3 2 "film-bottom-up" = (0, 0) ∧
     index_to_cell 3 3 2 "film-bottom-up" = (2, 1) ∧
     index_to_cell 4 3 2 "film-bottom-up" = (1, 1) ∧
     index_to_cell 5 3 2 "film-bottom-up" = (0, 1)) := by
  refine ⟨fun idx => index_to_cell_film idx rows cols, ?_, ?_, ?_, by decide⟩
  · intro idx hidx
    rw [index_to_cell_film]
    constructor
    · dsimp only
      omega
    · dsimp only
      rw [Nat.div_lt_iff_lt_mul hr]
      have h3 : rows * cols = cols * rows := mul_comm rows cols
      omega
  · intro i hi j hj heq
    rw [index_to_cell_film, index_to_cell_film, Prod.mk.injEq] at heq
    obtain ⟨heq1, heq2⟩ := heq
    have him : i % rows < rows := Nat.mod_lt _ hr
    have hjm : j % rows < rows := Nat.mod_lt _ hr
    have hmeq : i % rows = j % rows := by omega
    have d1 : rows * (i / rows) + i % rows = i := Nat.div_add_mod i rows
    have d2 : rows * (j / rows) + j % rows = j := Nat.div_add_mod j rows
    rw [heq2] at d1
    omega
  · intro r hrow c hcol
    refine ⟨c * rows + (rows - 1 - r), ?_, ?_⟩
    · have h2 : (c + 1) * rows ≤ cols * rows := Nat.mul_le_mul_right rows (by omega)
      rw [Nat.succ_mul] at h2
      have h3 : rows * cols = cols * rows := mul_comm rows cols
      omega
    · rw [index_to_cell_film]
      have e1 : (c * rows + (rows - 1 - r)) % rows = rows - 1 - r := by
        rw [mul_comm c rows, Nat.mul_add_mod]
        exact Nat.mod_eq_of_lt (by omega)
      have e2 : (c * rows + (rows - 1 - r)) / rows = c := by
        rw [mul_comm c rows, Nat.mul_add_div hr, Nat.div_eq_of_lt (by omega)]
        omega
      rw [e1, e2, Prod.mk.injEq]
      exact ⟨by omega, rfl⟩

/-- Witness for `index_to_cell_film_bijection` at `rows = 3`, `cols = 2`. -/
theorem index_to_cell_film_bijection_witness :
    1 ≤ 3 ∧ 1 ≤ 2 ∧
    ((∀ idx : ℕ, index_to_cell idx 3 2 "film-bottom-up"
        = ((3 - 1) - idx % 3, idx / 3)) ∧
    (∀ idx, idx < 3 * 2 →
      (index_to_cell idx 3 2 "film-bottom-up").1 < 3 ∧
      (index_to_cell idx 3 2 "film-bottom-up").2 < 2) ∧
    (∀ i, i < 3 * 2 → ∀ j, j < 3 * 2 →
      index_to_cell i 3 2 "film-bottom-up"
          = index_to_cell j 3 2 "film-bottom-up" → i = j) ∧
    (∀ r, r < 3 → ∀ c, c < 2 → ∃ idx, idx < 3 * 2 ∧
      index_to_cell idx 3 2 "film-bottom-up" = (r, c)) ∧
    (index_to_cell 0 3 2 "film-bottom-up" = (2, 0) ∧
     index_to_cell 1 3 2 "film-bottom-up" = (1, 0) ∧
     index_to_cell 2 3 2 "film-bottom-up" = (0, 0) ∧
     index_to_cell 3 3 2 "film-bottom-up" = (2, 1) ∧
     index_to_cell 4 3 2 "film-bottom-up" = (1, 1) ∧
     index_to_cell 5 3 2 "film-bottom-up" = (0, 1))) :=
  ⟨by decide, by decide, index_to_cell_film_bijection 3 2 (by decide) (by decide)⟩

/-- C6: for `rows ≥ 1` and `cols ≥ 1`, `index_to_cell` under
`"row-left-right"` computes `row = idx / cols`, `col = idx % cols`,
a bijection from `[0, rows*cols)` onto the grid in row-major order, and
every order string other than `"row-left-right"` and `"film-bottom-up"`
silently gets this same reading-order mapping instead of an error. -/
theorem index_to_cell_reading_spec (rows cols : ℕ) (hr : 1 ≤ rows) (hc : 1 ≤ cols) :
    (∀ idx : ℕ, index_to_cell idx rows cols "row-left-right"
        = (idx / cols, idx % cols)) ∧
    (∀ idx, idx < rows * cols →
      (index_to_cell idx rows cols "row-left-right").1 < rows ∧
      (index_to_cell idx rows cols "row-left-right").2 < cols) ∧
    (∀ i, i < rows * cols → ∀ j, j < rows * cols →
      index_to_cell i rows cols "row-left-right"
          = index_to_cell j rows cols "row-left-right" → i = j) ∧
    (∀ r, r < rows → ∀ c, c < cols → ∃ idx, idx < rows * cols ∧
      index_to_cell idx rows cols "row-left-right" = (r, c)) ∧
    (∀ order : String, order ≠ "row-left-right" → order ≠ "film-bottom-up" →
      ∀ idx : ℕ, index_to_cell idx rows cols order
        = index_to_cell idx rows cols "row-left-right") := by
  refine ⟨fun idx => index_to_cell_rlr idx rows cols, ?_, ?_, ?_, ?_⟩
  · intro idx hidx
    rw [index_to_cell_rlr]
    constructor
    · dsimp only
      rw [Nat.div_lt_iff_lt_mul hc]
      have h3 : rows * cols = cols * rows := mul_comm rows cols
      omega
    · exact Nat.mod_lt _ hc
  · intro i hi j hj heq
    rw [index_to_cell_rlr, index_to_cell_rlr, Prod.mk.injEq] at heq
    obtain ⟨heq1, heq2⟩ := heq
    have d1 : cols * (i / cols) + i % cols = i := Nat.div_add_mod i cols
    have d2 : cols * (j / cols) + j % cols = j := Nat.div_add_mod j cols
    rw [heq1] at d1
    omega
  · intro r hrow c hcol
    refine ⟨r * cols + c, ?_, ?_⟩
    · have h2 : (r + 1) * cols ≤ rows * cols := Nat.mul_le_mul_right cols (by omega)
      rw [Nat.succ_mul] at h2
      omega
    · rw [index_to_cell_rlr]
      have e1 : (r * cols + c) % cols = c := by
        rw [mul_comm r cols, Nat.mul_add_mod]
        exact Nat.mod_eq_of_lt hcol
      have e2 : (r * cols + c) / cols = r := by
        rw [mul_comm r cols, Nat.mul_add_div hc, Nat.div_eq_of_lt hcol]
        omega
      rw [e1, e2]
  · intro order h1 h2 idx
    rw [index_to_cell_other idx rows cols order h1 h2, index_to_cell_rlr]

/-- Witness for `index_to_cell_reading_spec` at `rows = 2`, `cols = 3`. -/
theorem index_to_cell_reading_spec_witness :
    1 ≤ 2 ∧ 1 ≤ 3 ∧
    ((∀ idx : ℕ, index_to_cell idx 2 3 "row-left-right"
        = (idx / 3, idx % 3)) ∧
    (∀ idx, idx < 2 * 3 →
      (index_to_cell idx 2 3 "row-left-right").1 < 2 ∧
      (index_to_cell idx 2 3 "row-left-right").2 < 3) ∧
    (∀ i, i < 2 * 3 → ∀ j, j < 2 * 3 →
      index_to_cell i 2 3 "row-left-right"
          = index_to_cell j 2 3 "row-left-right" → i = j) ∧
    (∀ r, r < 2 → ∀ c, c < 3 → ∃ idx, idx < 2 * 3 ∧
      index_to_cell idx 2 3 "row-left-right" = (r, c)) ∧
    (∀ order : String, order ≠ "row-left-right" → order ≠ "film-bottom-up" →
      ∀ idx : ℕ, index_to_cell idx 2 3 order
        = index_to_cell idx 2 3 "row-left-right")) :=
  ⟨by decide, by decide, index_to_cell_reading_spec 2 3 (by decide) (by decide)⟩

section AutoGridLemmas

/-- Invariant of the `choose_grid_auto` search loop: after processing the set
`S` of row candidates, the state is either still the untouched fallback with
no valid candidate seen, or it holds the first-found area-maximal valid
candidate seen so far. -/
def AutoInv (n : ℕ) (uw uh gap : ℚ) (S : ℕ → Prop) (st : (ℕ × ℕ) × ℚ) : Prop :=
  (st = ((1, n), -1) ∧ ∀ r, S r → ¬ isCand n uw uh gap r) ∨
  (isCand n uw uh gap st.1.1 ∧ S st.1.1 ∧ st.1.2 = autoCols n st.1.1 ∧
    st.2 = cellArea n uw uh gap st.1.1 ∧
    ∀ r, S r → isCand n uw uh gap r →
      cellArea n uw uh gap r ≤ st.2 ∧
        (cellArea n uw uh gap r = st.2 → st.1.1 ≤ r))

lemma AutoInv_congr (n : ℕ) (uw uh gap : ℚ) (S T : ℕ → Prop) (st : (ℕ × ℕ) × ℚ)
    (hST : ∀ x, S x ↔ T x) (h : AutoInv n uw uh gap S st) :
    AutoInv n uw uh gap T st := by
  cases h with
  | inl h => exact Or.inl ⟨h.1, fun r hr => h.2 r ((hST r).mpr hr)⟩
  | inr h => exact Or.inr ⟨h.1, (hST _).mp h.2.1, h.2.2.1, h.2.2.2.1,
      fun r hr => h.2.2.2.2 r ((hST r).mpr hr)⟩

lemma AutoInv_extend_notCand (n : ℕ) (uw uh gap : ℚ) (S : ℕ → Prop)
    (st : (ℕ × ℕ) × ℚ) (a : ℕ) (hnc : ¬ isCand n uw uh gap a)
    (h : AutoInv n uw uh gap S st) :
    AutoInv n uw uh gap (fun x => S x ∨ x = a) st := by
  cases h with
  | inl h => exact Or.inl ⟨h.1, fun r hr => hr.elim (h.2 r) (fun he => he ▸ hnc)⟩
  | inr h => exact Or.inr ⟨h.1, Or.inl h.2.1, h.2.2.1, h.2.2.2.1,
      fun r hr hcand => hr.elim (fun hs => h.2.2.2.2 r hs hcand)
        (fun he => absurd hcand (he ▸ hnc))⟩

lemma autoStep_inv (n : ℕ) (uw uh gap : ℚ) (S : ℕ → Prop) (st : (ℕ × ℕ) × ℚ)
    (a : ℕ) (ha1 : 1 ≤ a) (ha2 : a ≤ min 15 n) (hlt : ∀ s, S s → s < a)
    (h : AutoInv n uw uh gap S st) :
    AutoInv n uw uh gap (fun x => S x ∨ x = a) (autoStep n uw uh gap st a) := by
  unfold autoStep
  by_cases h30 : 30 < autoCols n a
  · rw [if_pos h30]
    exact AutoInv_extend_notCand n uw uh gap S st a
      (fun hc => absurd hc.2.2.1 (by omega)) h
  · rw [if_neg h30]
    by_cases hpos : cellW uw gap (autoCols n a) ≤ 0 ∨ cellW uh gap a ≤ 0
    · rw [if_pos hpos]
      refine AutoInv_extend_notCand n uw uh gap S st a ?_ h
      intro hc
      rcases hpos with hp | hp
      · exact absurd hc.2.2.2.1 (not_lt.mpr hp)
      · exact absurd hc.2.2.2.2 (not_lt.mpr hp)
    · rw [if_neg hpos]
      push_neg at hpos
      have hca : isCand n uw uh gap a := ⟨ha1, ha2, by omega, hpos.1, hpos.2⟩
      have hapos : 0 < cellArea n uw uh gap a := mul_pos hpos.1 hpos.2
      by_cases hup : st.2 < cellArea n uw uh gap a
      · rw [if_pos hup]
        refine Or.inr ⟨hca, Or.inr rfl, rfl, rfl, ?_⟩
        intro r hr hcand
        rcases hr with hs | he
        · cases h with
          | inl h => exact absurd hcand (h.2 r hs)
          | inr h =>
            have hle := (h.2.2.2.2 r hs hcand).1
            exact ⟨by dsimp only; linarith, fun heq => absurd heq
              (by dsimp only at heq ⊢; intro _; linarith)⟩
        · subst he
          exact ⟨le_refl _, fun _ => le_refl _⟩
      · rw [if_neg hup]
        push_neg at hup
        cases h with
        | inl h =>
          exfalso
          have hst2 : st.2 = -1 := by rw [h.1]
          rw [hst2] at hup
          linarith
        | inr h =>
          refine Or.inr ⟨h.1, Or.inl h.2.1, h.2.2.1, h.2.2.2.1, ?_⟩
          intro r hr hcand
          rcases hr with hs | he
          · exact h.2.2.2.2 r hs hcand
          · subst he
            exact ⟨hup, fun _ => le_of_lt (hlt st.1.1 h.2.1)⟩

lemma auto_foldl_inv (n : ℕ) (uw uh gap : ℚ) :
    ∀ m, m ≤ min 15 n →
      AutoInv n uw uh gap (fun x => 1 ≤ x ∧ x ≤ m)
        ((List.range' 1 m).foldl (autoStep n uw uh gap) ((1, n), -1)) := by
  intro m
  induction m with
  | zero =>
    intro _
    refine Or.inl ⟨rfl, ?_⟩
    intro r hr hc
    omega
  | succ k ih =>
    intro hk
    rw [List.range'_concat, List.foldl_append, List.foldl_cons, List.foldl_nil]
    have hnorm : 1 + 1 * k = k + 1 := by ring
    rw [hnorm]
    refine AutoInv_congr n uw uh gap _ _ _ (fun x => ?_)
      (autoStep_inv n uw uh gap (fun x => 1 ≤ x ∧ x ≤ k) _ (k + 1)
        (by omega) (by omega) (fun s hs => by omega) (ih (by omega)))
    constructor
    · intro hx
      rcases hx with hx | hx <;> omega
    · intro hx
      by_cases hxe : x = k + 1
      · exact Or.inr hxe
      · exact Or.inl (by omega)

end AutoGridLemmas

/-- C3: whenever some row count in `[1, min(15, n)]` is a valid candidate
(derived column count at most 30 and both cell dimensions positive),
`choose_grid_auto` returns a valid candidate `(rows, cols)` with
`cols = ceil(n / rows)` whose cell area no candidate strictly exceeds, and
among equal-area candidates it returns the first found, i.e. the one with
the fewest rows. -/
theorem choose_grid_auto_maximal (n : ℕ) (pw ph margin gap : ℚ) (hn : 1 ≤ n)
    (hex : ∃ r, isCand n (pw - 2 * margin) (ph - 2 * margin) gap r) :
    isCand n (pw - 2 * margin) (ph - 2 * margin) gap
        (choose_grid_auto n pw ph margin gap).1 ∧
    (choose_grid_auto n pw ph margin gap).2
        = autoCols n (choose_grid_auto n pw ph margin gap).1 ∧
    ∀ r, isCand n (pw - 2 * margin) (ph - 2 * margin) gap r →
      cellArea n (pw - 2 * margin) (ph - 2 * margin) gap r
          ≤ cellArea n (pw - 2 * margin) (ph - 2 * margin) gap
              (choose_grid_auto n pw ph margin gap).1 ∧
      (cellArea n (pw - 2 * margin) (ph - 2 * margin) gap r
          = cellArea n (pw - 2 * margin) (ph - 2 * margin) gap
              (choose_grid_auto n pw ph margin gap).1 →
        (choose_grid_auto n pw ph margin gap).1 ≤ r) := by
  have hinv := auto_foldl_inv n (pw - 2 * margin) (ph - 2 * margin) gap
    (min 15 n) le_rfl
  unfold choose_grid_auto
  rcases hinv with ⟨hst, hnone⟩ | ⟨hc, hmem, hcols, harea, hmax⟩
  · exfalso
    obtain ⟨r0, hr0⟩ := hex
    exact hnone r0 ⟨hr0.1, hr0.2.1⟩ hr0
  · refine ⟨hc, hcols, ?_⟩
    intro r hr
    have hm := hmax r ⟨hr.1, hr.2.1⟩ hr
    rw [harea] at hm
    exact hm

/-- Witness for `choose_grid_auto_maximal`: 4 images on a 100×100 page with
margin 10 and gap 2 (usable area 80×80), where `rows = 1` is a valid
candidate. -/
theorem choose_grid_auto_maximal_witness :
    (1 : ℕ) ≤ 4 ∧
    (∃ r, isCand 4 ((100 : ℚ) - 2 * 10) ((100 : ℚ) - 2 * 10) 2 r) ∧
    (isCand 4 ((100 : ℚ) - 2 * 10) ((100 : ℚ) - 2 * 10) 2
        (choose_grid_auto 4 100 100 10 2).1 ∧
    (choose_grid_auto 4 100 100 10 2).2
        = autoCols 4 (choose_grid_auto 4 100 100 10 2).1 ∧
    ∀ r, isCand 4 ((100 : ℚ) - 2 * 10) ((100 : ℚ) - 2 * 10) 2 r →
      cellArea 4 ((100 : ℚ) - 2 * 10) ((100 : ℚ) - 2 * 10) 2 r
          ≤ cellArea 4 ((100 : ℚ) - 2 * 10) ((100 : ℚ) - 2 * 10) 2
              (choose_grid_auto 4 100 100 10 2).1 ∧
      (cellArea 4 ((100 : ℚ) - 2 * 10) ((100 : ℚ) - 2 * 10) 2 r
          = cellArea 4 ((100 : ℚ) - 2 * 10) ((100 : ℚ) - 2 * 10) 2
              (choose_grid_auto 4 100 100 10 2).1 →
        (choose_grid_auto 4 100 100 10 2).1 ≤ r)) :=
  ⟨by norm_num,
   ⟨1, by norm_num [isCand, autoCols, ceilDiv, cellW]⟩,
   choose_grid_auto_maximal 4 100 100 10 2 (by norm_num)
     ⟨1, by norm_num [isCand, autoCols, ceilDiv, cellW]⟩⟩

/-- C4: when no row count in range yields a valid candidate, the automatic
search returns the fallback `(1, n)` unchanged, without error and without
any validation of the fallback itself. -/
theorem choose_grid_auto_fallback (n : ℕ) (pw ph margin gap : ℚ) (hn : 1 ≤ n)
    (hnone : ∀ r, ¬ isCand n (pw - 2 * margin) (ph - 2 * margin) gap r) :
    choose_grid_auto n pw ph margin gap = (1, n) := by
  have hinv := auto_foldl_inv n (pw - 2 * margin) (ph - 2 * margin) gap
    (min 15 n) le_rfl
  unfold choose_grid_auto
  rcases hinv with ⟨hst, -⟩ | ⟨hc, -, -, -, -⟩
  · rw [hst]
  · exact absurd hc (hnone _)

/-- Witness for `choose_grid_auto_fallback`: one image on a 10×10 page with
margin 10 (negative usable area), where no candidate is valid and the
degenerate fallback `(1, 1)` comes back unvalidated. -/
theorem choose_grid_auto_fallback_witness :
    (1 : ℕ) ≤ 1 ∧
    (∀ r, ¬ isCand 1 ((10 : ℚ) - 2 * 10) ((10 : ℚ) - 2 * 10) 0 r) ∧
    choose_grid_auto 1 10 10 10 0 = (1, 1) := by
  have hnone : ∀ r, ¬ isCand 1 ((10 : ℚ) - 2 * 10) ((10 : ℚ) - 2 * 10) 0 r := by
    intro r hc
    obtain ⟨h1, h2, h3, h4, h5⟩ := hc
    norm_num at h2
    have hr1 : r = 1 := by omega
    subst hr1
    norm_num [cellW, autoCols, ceilDiv] at h4
  exact ⟨by norm_num, hnone, choose_grid_auto_fallback 1 10 10 10 0 (by norm_num) hnone⟩

/-- Positivity of the automatic result: for `n ≥ 1` both components of
`choose_grid_auto` are at least 1 (either the fallback `(1, n)` or a valid
candidate with its ceiling-division column count). -/
lemma choose_grid_auto_pos (n : ℕ) (pw ph margin gap : ℚ) (hn : 1 ≤ n) :
    1 ≤ (choose_grid_auto n pw ph margin gap).1 ∧
    1 ≤ (choose_grid_auto n pw ph margin gap).2 := by
  have hinv := auto_foldl_inv n (pw - 2 * margin) (ph - 2 * margin) gap
    (min 15 n) le_rfl
  unfold choose_grid_auto
  rcases hinv with ⟨hst, -⟩ | ⟨hc, -, hcols, -, -⟩
  · rw [hst]
    exact ⟨le_refl 1, hn⟩
  · refine ⟨hc.1, ?_⟩
    rw [hcols]
    exact ceilDiv_pos n _ hn hc.1

section GridModeLemmas

lemma truthy_getD_pos (o : Option ℕ) (h : truthy o = true) : 1 ≤ o.getD 0 := by
  cases o with
  | none => simp [truthy] at h
  | some k =>
    simp [truthy] at h
    simpa using Nat.one_le_iff_ne_zero.mpr h

end GridModeLemmas

/-- C5: in explicit grid mode, with `n ≥ 1` items, supplying only
`rows = r ≥ 1` derives `cols = ceil(n / r)`, supplying only `cols = c ≥ 1`
derives `rows = ceil(n / c)`, supplying both uses them as-is with no
validation against the item count, and `--rows 3` with 10 images yields
`cols = 4`. -/
theorem chooseGrid_explicit (n : ℕ) (pw ph margin gap : ℚ) (hn : 1 ≤ n) :
    (∀ r : ℕ, 1 ≤ r → ∀ colsArg : Option ℕ, truthy colsArg = false →
      chooseGrid n (some r) colsArg pw ph margin gap = (r, ceilDiv n r)) ∧
    (∀ c : ℕ, 1 ≤ c → ∀ rowsArg : Option ℕ, truthy rowsArg = false →
      chooseGrid n rowsArg (some c) pw ph margin gap = (ceilDiv n c, c)) ∧
    (∀ r c : ℕ, 1 ≤ r → 1 ≤ c →
      chooseGrid n (some r) (some c) pw ph margin gap = (r, c)) ∧
    chooseGrid 10 (some 3) none pw ph margin gap = (3, 4) := by
  refine ⟨?_, ?_, ?_, ?_⟩
  · intro r hr colsArg hca
    have htr : truthy (some r) = true := by
      simp [truthy]
      omega
    simp [chooseGrid, htr, hca]
  · intro c hc rowsArg hra
    have htc : truthy (some c) = true := by
      simp [truthy]
      omega
    simp [chooseGrid, htc, hra]
  · intro r c hr hc
    have htr : truthy (some r) = true := by
      simp [truthy]
      omega
    have htc : truthy (some c) = true := by
      simp [truthy]
      omega
    simp [chooseGrid, htr, htc]
  · norm_num [chooseGrid, truthy, ceilDiv]

/-- Witness for `chooseGrid_explicit` at `n = 10`. -/
theorem chooseGrid_explicit_witness :
    (1 : ℕ) ≤ 10 ∧
    chooseGrid 10 (some 3) none 0 0 0 0 = (3, ceilDiv 10 3) ∧
    chooseGrid 10 none (some 4) 0 0 0 0 = (ceilDiv 10 4, 4) ∧
    chooseGrid 10 (some 2) (some 2) 0 0 0 0 = (2, 2) :=
  ⟨by norm_num,
   (chooseGrid_explicit 10 0 0 0 0 (by norm_num)).1 3 (by norm_num) none rfl,
   (chooseGrid_explicit 10 0 0 0 0 (by norm_num)).2.1 4 (by norm_num) none rfl,
   (chooseGrid_explicit 10 0 0 0 0 (by norm_num)).2.2.1 2 2 (by norm_num) (by norm_num)⟩

/-- C10: a `--rows` or `--cols` value of 0 is falsy, hence treated exactly
as an omitted option; with rows 0 and cols `k ≥ 1` the rows are derived as
`ceil(n/k)`, with both 0 the automatic search runs, and for every `n ≥ 1`
and any non-negative option values the resulting `rows * cols` capacity
passed to `paginate` is at least 1. -/
theorem chooseGrid_zero_falsy_capacity_pos (n : ℕ) (pw ph margin gap : ℚ)
    (hn : 1 ≤ n) :
    (∀ colsArg : Option ℕ, chooseGrid n (some 0) colsArg pw ph margin gap
        = chooseGrid n none colsArg pw ph margin gap) ∧
    (∀ rowsArg : Option ℕ, chooseGrid n rowsArg (some 0) pw ph margin gap
        = chooseGrid n rowsArg none pw ph margin gap) ∧
    (∀ k : ℕ, 1 ≤ k →
      chooseGrid n (some 0) (some k) pw ph margin gap = (ceilDiv n k, k)) ∧
    chooseGrid n (some 0) (some 0) pw ph margin gap
        = choose_grid_auto n pw ph margin gap ∧
    (∀ rowsArg colsArg : Option ℕ,
      1 ≤ (chooseGrid n rowsArg colsArg pw ph margin gap).1 *
          (chooseGrid n rowsArg colsArg pw ph margin gap).2) := by
  refine ⟨?_, ?_, ?_, ?_, ?_⟩
  · intro colsArg
    simp [chooseGrid, truthy]
  · intro rowsArg
    simp [chooseGrid, truthy]
  · intro k hk
    have hk0 : k ≠ 0 := by omega
    simp [chooseGrid, truthy, hk0]
  · simp [chooseGrid, truthy]
  · intro rowsArg colsArg
    rcases hra : truthy rowsArg with _ | _ <;> rcases hca : truthy colsArg with _ | _
    · -- both falsy: automatic search
      simp [chooseGrid, hra, hca]
      have := choose_grid_auto_pos n pw ph margin gap hn
      exact Nat.mul_pos this.1 this.2
    · -- only cols
      have h1 := truthy_getD_pos colsArg hca
      simp [chooseGrid, hra, hca]
      exact Nat.mul_pos (ceilDiv_pos n _ hn h1) h1
    · -- only rows
      have h1 := truthy_getD_pos rowsArg hra
      simp [chooseGrid, hra, hca]
      exact Nat.mul_pos h1 (ceilDiv_pos n _ hn h1)
    · -- both
      have h1 := truthy_getD_pos rowsArg hra
      have h2 := truthy_getD_pos colsArg hca
      simp [chooseGrid, hra, hca]
      exact Nat.mul_pos h1 h2

/-- Witness for `chooseGrid_zero_falsy_capacity_pos` at `n = 5` with a
degenerate page, exercising the rows-0/cols-2 and both-0 conjuncts. -/
theorem chooseGrid_zero_falsy_capacity_pos_witness :
    (1 : ℕ) ≤ 5 ∧
    chooseGrid 5 (some 0) (some 2) 0 0 0 0 = (ceilDiv 5 2, 2) ∧
    chooseGrid 5 (some 0) (some 0) 0 0 0 0 = choose_grid_auto 5 0 0 0 0 ∧
    1 ≤ (chooseGrid 5 (some 0) (some 0) 0 0 0 0).1 *
        (chooseGrid 5 (some 0) (some 0) 0 0 0 0).2 :=
  ⟨by norm_num,
   (chooseGrid_zero_falsy_capacity_pos 5 0 0 0 0 (by norm_num)).2.2.1 2 (by norm_num),
   (chooseGrid_zero_falsy_capacity_pos 5 0 0 0 0 (by norm_num)).2.2.2.1,
   (chooseGrid_zero_falsy_capacity_pos 5 0 0 0 0 (by norm_num)).2.2.2.2 (some 0) (some 0)⟩

section OrientationLemmas

lemma unify_none (img : Img) : unify_orientation img "none" = img := by
  unfold unify_orientation
  rw [if_pos rfl]

lemma unify_portrait (img : Img) :
    unify_orientation img "portrait"
      = if img.width ≤ img.height then img else Img.rot90 img := by
  have hpn : ("portrait" : String) ≠ "none" := by decide
  have hpl : ("portrait" : String) ≠ "landscape" := by decide
  unfold unify_orientation
  rw [if_neg hpn]
  by_cases hwh : img.width ≤ img.height
  · rw [if_neg (fun h => h.2 hwh), if_neg (fun h => hpl h.1), if_pos hwh]
  · rw [if_pos ⟨rfl, hwh⟩, if_neg hwh]

lemma unify_landscape (img : Img) :
    unify_orientation img "landscape"
      = if img.width ≤ img.height then Img.rotNeg90 img else img := by
  have hln : ("landscape" : String) ≠ "none" := by decide
  have hlp : ("landscape" : String) ≠ "portrait" := by decide
  unfold unify_orientation
  rw [if_neg hln]
  by_cases hwh : img.width ≤ img.height
  · rw [if_neg (fun h => hlp h.1), if_pos ⟨rfl, hwh⟩, if_pos hwh]
  · rw [if_neg (fun h => hlp h.1), if_neg (fun h => hwh h.2), if_neg hwh]

lemma rot90_ne (img : Img) : Img.rot90 img ≠ img := by
  intro h
  have hq := congrArg Img.quarterTurns h
  simp [Img.rot90] at hq

lemma rotNeg90_ne (img : Img) : Img.rotNeg90 img ≠ img := by
  intro h
  have hq := congrArg Img.quarterTurns h
  simp [Img.rotNeg90] at hq

end OrientationLemmas

/-- C8 counterexample: a 7×7 square image in mode `"landscape"` is rotated
by the code (because `is_portrait = h ≥ w` holds for a square), although
the square is not strictly taller than wide — refuting the claim that the
landscape mode rotates only strictly taller-than-wide images and that a
square is rotated in neither mode. -/
theorem unify_orientation_square_landscape_cex :
    unify_orientation ⟨7, 7, 0⟩ "landscape" = Img.rotNeg90 ⟨7, 7, 0⟩ ∧
    unify_orientation ⟨7, 7, 0⟩ "landscape" ≠ ⟨7, 7, 0⟩ ∧
    ¬ ((7 : ℕ) < 7) := by decide

/-- C8 (amended): `unify_orientation` with mode `"portrait"` rotates exactly
the strictly wider-than-tall images (squares are left alone), with mode
`"landscape"` it rotates exactly the images at least as tall as wide — so a
square IS rotated in landscape mode, though never in portrait mode — and
with mode `"none"` it returns the image unchanged. -/
theorem unify_orientation_rotation_spec (img : Img) :
    unify_orientation img "none" = img ∧
    (img.width ≤ img.height → unify_orientation img "portrait" = img) ∧
    (img.height < img.width → unify_orientation img "portrait" = Img.rot90 img) ∧
    (img.width ≤ img.height →
      unify_orientation img "landscape" = Img.rotNeg90 img) ∧
    (img.height < img.width → unify_orientation img "landscape" = img) ∧
    (unify_orientation img "portrait" ≠ img ↔ img.height < img.width) ∧
    (unify_orientation img "landscape" ≠ img ↔ img.width ≤ img.height) := by
  have hp := unify_portrait img
  have hl := unify_landscape img
  refine ⟨unify_none img, ?_, ?_, ?_, ?_, ?_, ?_⟩
  · intro hle
    rw [hp, if_pos hle]
  · intro hlt
    rw [hp, if_neg (by omega)]
  · intro hle
    rw [hl, if_pos hle]
  · intro hlt
    rw [hl, if_neg (by omega)]
  · constructor
    · intro hne
      by_contra hh
      exact hne (by rw [hp, if_pos (by omega)])
    · intro hlt
      rw [hp, if_neg (by omega)]
      exact rot90_ne img
  · constructor
    · intro hne
      by_contra hh
      exact hne (by rw [hl, if_neg hh])
    · intro hle
      rw [hl, if_pos hle]
      exact rotNeg90_ne img

/-- Witness for `unify_orientation_rotation_spec` on a 3×5 portrait image. -/
theorem unify_orientation_rotation_spec_witness :
    unify_orientation ⟨3, 5, 0⟩ "none" = ⟨3, 5, 0⟩ ∧
    unify_orientation ⟨3, 5, 0⟩ "portrait" = ⟨3, 5, 0⟩ ∧
    unify_orientation ⟨3, 5, 0⟩ "landscape" = Img.rotNeg90 ⟨3, 5, 0⟩ :=
  ⟨(unify_orientation_rotation_spec ⟨3, 5, 0⟩).1,
   (unify_orientation_rotation_spec ⟨3, 5, 0⟩).2.1 (by decide),
   (unify_orientation_rotation_spec ⟨3, 5, 0⟩).2.2.2.1 (by decide)⟩

section ScaleLemmas

lemma pyInt_of_nonneg (q : ℚ) (h : 0 ≤ q) : pyInt q = ⌊q⌋ := if_pos h

lemma scaleFit_mono (w h : ℕ) (cw ch : ℚ) (hw : 1 ≤ w) (hh : 1 ≤ h)
    (hcw : 0 < cw) (hch : 0 < ch) (hwh : w ≤ h) :
    (scaleFit w h cw ch).1 ≤ (scaleFit w h cw ch).2 := by
  have hw0 : (0 : ℚ) < (w : ℚ) := by exact_mod_cast hw
  have hh0 : (0 : ℚ) < (h : ℚ) := by exact_mod_cast hh
  have hs : 0 < min (cw / (w : ℚ)) (ch / (h : ℚ)) :=
    lt_min (div_pos hcw hw0) (div_pos hch hh0)
  have hws : (w : ℚ) * min (cw / (w : ℚ)) (ch / (h : ℚ))
      ≤ (h : ℚ) * min (cw / (w : ℚ)) (ch / (h : ℚ)) :=
    mul_le_mul_of_nonneg_right (by exact_mod_cast hwh) (le_of_lt hs)
  have h1 : 0 ≤ (w : ℚ) * min (cw / (w : ℚ)) (ch / (h : ℚ)) :=
    le_of_lt (mul_pos hw0 hs)
  have h2 : 0 ≤ (h : ℚ) * min (cw / (w : ℚ)) (ch / (h : ℚ)) :=
    le_of_lt (mul_pos hh0 hs)
  unfold scaleFit
  rw [pyInt_of_nonneg _ h1, pyInt_of_nonneg _ h2]
  exact max_le_max (le_refl 1) (Int.floor_le_floor hws)

end ScaleLemmas

/-- C7: for any stored pixel dimensions `w, h ≥ 1` and positive cell size,
after `unify_orientation` with mode `"portrait"` the in-memory image is at
least as tall as wide, and the integer thumbnail dimensions
`max(1, int(w*scale)) × max(1, int(h*scale))` computed in `draw_page` with
`scale = min(cell_w/w, cell_h/h)` preserve that: the drawn thumbnail has
height at least its width. -/
theorem portrait_thumbnail_tall (w h : ℕ) (q : ℤ) (cw ch : ℚ)
    (hw : 1 ≤ w) (hh : 1 ≤ h) (hcw : 0 < cw) (hch : 0 < ch) :
    (unify_orientation ⟨w, h, q⟩ "portrait").width
        ≤ (unify_orientation ⟨w, h, q⟩ "portrait").height ∧
    (scaleFit (unify_orientation ⟨w, h, q⟩ "portrait").width
        (unify_orientation ⟨w, h, q⟩ "portrait").height cw ch).1
      ≤ (scaleFit (unify_orientation ⟨w, h, q⟩ "portrait").width
        (unify_orientation ⟨w, h, q⟩ "portrait").height cw ch).2 := by
  by_cases hwh : w ≤ h
  · have e : unify_orientation ⟨w, h, q⟩ "portrait" = ⟨w, h, q⟩ := by
      rw [unify_portrait]
      exact if_pos hwh
    rw [e]
    exact ⟨hwh, scaleFit_mono w h cw ch hw hh hcw hch hwh⟩
  · have e : unify_orientation ⟨w, h, q⟩ "portrait" = Img.rot90 ⟨w, h, q⟩ := by
      rw [unify_portrait]
      exact if_neg hwh
    rw [e]
    refine ⟨?_, ?_⟩
    · dsimp only [Img.rot90]
      omega
    · exact scaleFit_mono h w cw ch hh hw hcw hch (by omega)

/-- Witness for `portrait_thumbnail_tall` on a 5×3 landscape original in a
10×10 cell. -/
theorem portrait_thumbnail_tall_witness :
    (1 : ℕ) ≤ 5 ∧ (1 : ℕ) ≤ 3 ∧ (0 : ℚ) < 10 ∧ (0 : ℚ) < 10 ∧
    ((unify_orientation ⟨5, 3, 0⟩ "portrait").width
        ≤ (unify_orientation ⟨5, 3, 0⟩ "portrait").height ∧
    (scaleFit (unify_orientation ⟨5, 3, 0⟩ "portrait").width
        (unify_orientation ⟨5, 3, 0⟩ "portrait").height 10 10).1
      ≤ (scaleFit (unify_orientation ⟨5, 3, 0⟩ "portrait").width
        (unify_orientation ⟨5, 3, 0⟩ "portrait").height 10 10).2) :=
  ⟨by norm_num, by norm_num, by norm_num, by norm_num,
   portrait_thumbnail_tall 5 3 0 10 10 (by norm_num) (by norm_num)
     (by norm_num) (by norm_num)⟩

section FindImagesLemmas

/-- Directory contents used to exhibit the extension-iteration-order
dependence: one PNG and one JPG. -/
def demoDir : List FileName := [⟨"a", ".png"⟩, ⟨"b", ".jpg"⟩]

/-- A different, equally legitimate iteration order of the `IMG_EXTS` set
(Python string hashing is randomised across interpreter runs, so the set's
iteration order is not fixed). -/
def extOrderAlt : List String := [".png", ".jpg", ".jpeg", ".tif", ".tiff", ".webp"]

lemma find_images_fold_spec (dir : List FileName) (files : List FileName) :
    ∀ out seen : List FileName, out = seen → out.Nodup →
      (∀ f ∈ out, f ∈ dir ∧ pyLower f.ext ∈ IMG_EXTS) →
      ((files.foldl
          (fun acc p =>
            if p ∈ dir ∧ pyLower p.ext ∈ IMG_EXTS ∧ p ∉ acc.2
            then (acc.1 ++ [p], acc.2 ++ [p]) else acc)
          (out, seen)).1.Nodup ∧
       ∀ f ∈ (files.foldl
          (fun acc p =>
            if p ∈ dir ∧ pyLower p.ext ∈ IMG_EXTS ∧ p ∉ acc.2
            then (acc.1 ++ [p], acc.2 ++ [p]) else acc)
          (out, seen)).1, f ∈ dir ∧ pyLower f.ext ∈ IMG_EXTS) := by
  induction files with
  | nil =>
    intro out seen hos hnd hP
    exact ⟨hnd, hP⟩
  | cons p ps ih =>
    intro out seen hos hnd hP
    rw [List.foldl_cons]
    by_cases hC : p ∈ dir ∧ pyLower p.ext ∈ IMG_EXTS ∧ p ∉ seen
    · rw [if_pos hC]
      refine ih (out ++ [p]) (seen ++ [p]) (by rw [hos]) ?_ ?_
      · rw [List.nodup_append]
        refine ⟨hnd, List.nodup_singleton p, ?_⟩
        intro a ha hap
        rw [List.mem_singleton] at hap
        subst hap
        exact hC.2.2 (hos ▸ ha)
      · intro f hf
        rw [List.mem_append, List.mem_singleton] at hf
        rcases hf with hf | hf
        · exact hP f hf
        · subst hf
          exact ⟨hC.1, hC.2.1⟩
    · rw [if_neg hC]
      exact ih out seen hos hnd hP

lemma charsLt_asymm : ∀ x y : List Char, charsLt x y = true → charsLt y x = false := by
  intro x
  induction x with
  | nil =>
    intro y h
    cases y with
    | nil => simp [charsLt] at h
    | cons b bs => simp [charsLt]
  | cons a as ih =>
    intro y h
    cases y with
    | nil => simp [charsLt] at h
    | cons b bs =>
      simp only [charsLt] at h ⊢
      by_cases h1 : a.toNat < b.toNat
      · rw [if_neg (by omega), if_pos h1]
      · by_cases h2 : b.toNat < a.toNat
        · rw [if_neg h1, if_pos h2] at h
          exact absurd h (by simp)
        · rw [if_neg h1, if_neg h2] at h
          rw [if_neg h2, if_neg h1]
          exact ih bs h

lemma charsLt_trans :
    ∀ x y z : List Char, charsLt x y = true → charsLt y z = true →
      charsLt x z = true := by
  intro x
  induction x with
  | nil =>
    intro y z hxy hyz
    cases y with
    | nil => simp [charsLt] at hxy
    | cons b bs =>
      cases z with
      | nil => simp [charsLt] at hyz
      | cons c cs => simp [charsLt]
  | cons a as ih =>
    intro y z hxy hyz
    cases y with
    | nil => simp [charsLt] at hxy
    | cons b bs =>
      cases z with
      | nil => simp [charsLt] at hyz
      | cons c cs =>
        simp only [charsLt] at hxy hyz ⊢
        by_cases h1 : a.toNat < b.toNat
        · by_cases h2 : b.toNat < c.toNat
          · rw [if_pos (by omega)]
          · by_cases h3 : c.toNat < b.toNat
            · rw [if_neg h2, if_pos h3] at hyz
              exact absurd hyz (by simp)
            · rw [if_pos (by omega)]
        · by_cases h4 : b.toNat < a.toNat
          · rw [if_neg h1, if_pos h4] at hxy
            exact absurd hxy (by simp)
          · rw [if_neg h1, if_neg h4] at hxy
            by_cases h2 : b.toNat < c.toNat
            · rw [if_pos (by omega)]
            · by_cases h3 : c.toNat < b.toNat
              · rw [if_neg h2, if_pos h3] at hyz
                exact absurd hyz (by simp)
              · rw [if_neg h2, if_neg h3] at hyz
                rw [if_neg (by omega), if_neg (by omega)]
                exact ih bs cs hxy hyz

lemma nameLt_nameLe (a b : FileName) (h : nameLt a b) : nameLe a b :=
  charsLt_asymm _ _ h

lemma not_nameLt_nameLe (a b : FileName) (h : ¬ nameLt a b) : nameLe b a := by
  unfold nameLt at h
  unfold nameLe
  rwa [Bool.not_eq_true] at h

lemma nameLt_trans_le (a b x : FileName) (hab : nameLt a b) (hbx : nameLe b x) :
    nameLe a x := by
  unfold nameLe at hbx ⊢
  unfold nameLt at hab
  by_contra hxa
  rw [Bool.not_eq_false] at hxa
  have hcontra := charsLt_trans _ _ _ hxa hab
  unfold pyStrLt at hbx
  rw [hbx] at hcontra
  exact absurd hcontra (by simp)

lemma sorted_orderedInsert (a : FileName) :
    ∀ l : List FileName, List.Sorted nameLe l →
      List.Sorted nameLe (List.orderedInsert nameLt a l) := by
  intro l
  induction l with
  | nil =>
    intro _
    simp [List.orderedInsert]
  | cons b bs ih =>
    intro hs
    rw [List.sorted_cons] at hs
    rw [List.orderedInsert]
    by_cases hab : nameLt a b
    · rw [if_pos hab, List.sorted_cons]
      refine ⟨?_, by rw [List.sorted_cons]; exact hs⟩
      intro x hx
      rw [List.mem_cons] at hx
      rcases hx with rfl | hx
      · exact nameLt_nameLe a x hab
      · exact nameLt_trans_le a b x hab (hs.1 x hx)
    · rw [if_neg hab, List.sorted_cons]
      refine ⟨?_, ih hs.2⟩
      intro x hx
      rw [List.mem_orderedInsert] at hx
      rcases hx with rfl | hx
      · exact not_nameLt_nameLe x b hab
      · exact hs.1 x hx

lemma sorted_sortByName (l : List FileName) : List.Sorted nameLe (sortByName l) := by
  unfold sortByName
  induction l with
  | nil => simp [List.insertionSort]
  | cons a as ih =>
    rw [List.insertionSort]
    exact sorted_orderedInsert a _ ih

lemma mem_sortByName (f : FileName) (l : List FileName) :
    f ∈ sortByName l ↔ f ∈ l := by
  unfold sortByName
  exact (List.perm_insertionSort nameLt l).mem_iff

lemma find_images_fold_sublist (dir : List FileName) :
    ∀ (files out seen : List FileName),
      ∃ l' : List FileName,
        (files.foldl
            (fun acc p =>
              if p ∈ dir ∧ pyLower p.ext ∈ IMG_EXTS ∧ p ∉ acc.2
              then (acc.1 ++ [p], acc.2 ++ [p]) else acc)
            (out, seen)).1 = out ++ l' ∧ l'.Sublist files := by
  intro files
  induction files with
  | nil =>
    intro out seen
    exact ⟨[], by simp, List.Sublist.refl _⟩
  | cons p ps ih =>
    intro out seen
    rw [List.foldl_cons]
    by_cases hC : p ∈ dir ∧ pyLower p.ext ∈ IMG_EXTS ∧ p ∉ seen
    · rw [if_pos hC]
      obtain ⟨l', hl', hsub⟩ := ih (out ++ [p]) (seen ++ [p])
      refine ⟨p :: l', ?_, hsub.cons₂ p⟩
      rw [hl']
      simp
    · rw [if_neg hC]
      obtain ⟨l', hl', hsub⟩ := ih out seen
      exact ⟨l', hl', hsub.cons p⟩

lemma find_images_fold_complete (dir : List FileName) :
    ∀ (files out seen : List FileName), out = seen →
      ∀ f : FileName, f ∈ files → f ∈ dir → pyLower f.ext ∈ IMG_EXTS →
        f ∈ (files.foldl
            (fun acc p =>
              if p ∈ dir ∧ pyLower p.ext ∈ IMG_EXTS ∧ p ∉ acc.2
              then (acc.1 ++ [p], acc.2 ++ [p]) else acc)
            (out, seen)).1 := by
  intro files
  induction files with
  | nil =>
    intro out seen hos f hf
    simp at hf
  | cons p ps ih =>
    intro out seen hos f hf hfd hfe
    rw [List.foldl_cons]
    rw [List.mem_cons] at hf
    by_cases hC : p ∈ dir ∧ pyLower p.ext ∈ IMG_EXTS ∧ p ∉ seen
    · rw [if_pos hC]
      rcases hf with rfl | hf
      · obtain ⟨l', hl', -⟩ := find_images_fold_sublist dir ps (out ++ [f]) (seen ++ [f])
        rw [hl']
        simp
      · exact ih (out ++ [p]) (seen ++ [p]) (by rw [hos]) f hf hfd hfe
    · rw [if_neg hC]
      rcases hf with rfl | hf
      · have hpseen : f ∈ seen := by
          by_contra hns
          exact hC ⟨hfd, hfe, hns⟩
        have hpout : f ∈ out := hos ▸ hpseen
        obtain ⟨l', hl', -⟩ := find_images_fold_sublist dir ps out seen
        rw [hl']
        exact List.mem_append_left _ hpout
      · exact ih out seen hos f hf hfd hfe

/-- The sequence of glob patterns the directory scan tries, in iteration
order: for each extension, first the lower-case then the upper-case form. -/
def globPatterns (extOrder : List String) : List String :=
  extOrder.flatMap (fun e => [e, pyUpper e])

lemma mem_files_iff (extOrder : List String) (dir : List FileName) (f : FileName) :
    f ∈ extOrder.flatMap (fun ext =>
        sortByName (dir.filter (fun f => f.ext = ext)) ++
        sortByName (dir.filter (fun f => f.ext = pyUpper ext))) ↔
      f ∈ dir ∧ ∃ e ∈ extOrder, f.ext = e ∨ f.ext = pyUpper e := by
  rw [List.mem_flatMap]
  constructor
  · rintro ⟨e, he, hf⟩
    simp only [List.mem_append, mem_sortByName, List.mem_filter,
      decide_eq_true_eq] at hf
    rcases hf with ⟨hfd, hfe⟩ | ⟨hfd, hfe⟩
    · exact ⟨hfd, e, he, Or.inl hfe⟩
    · exact ⟨hfd, e, he, Or.inr hfe⟩
  · rintro ⟨hfd, e, he, hcase⟩
    refine ⟨e, he, ?_⟩
    simp only [List.mem_append, mem_sortByName, List.mem_filter,
      decide_eq_true_eq]
    rcases hcase with h | h
    · exact Or.inl ⟨hfd, h⟩
    · exact Or.inr ⟨hfd, h⟩

lemma files_eq_patterns (extOrder : List String) (dir : List FileName) :
    extOrder.flatMap (fun ext =>
        sortByName (dir.filter (fun f => f.ext = ext)) ++
        sortByName (dir.filter (fun f => f.ext = pyUpper ext)))
      = (globPatterns extOrder).flatMap
          (fun pat => sortByName (dir.filter (fun f => f.ext = pat))) := by
  induction extOrder with
  | nil => rfl
  | cons e rest ih =>
    unfold globPatterns at ih ⊢
    rw [List.flatMap_cons, ih, List.flatMap_cons, List.flatMap_append,
      List.flatMap_cons, List.flatMap_cons, List.flatMap_nil, List.append_nil,
      List.append_assoc]

lemma globPatterns_nodup (extOrder : List String) (hperm : extOrder.Perm IMG_EXTS) :
    (globPatterns extOrder).Nodup := by
  have hp : (globPatterns extOrder).Perm (globPatterns IMG_EXTS) :=
    hperm.flatMap_right _
  exact hp.nodup_iff.mpr (by decide)

lemma sorted_filter_patterns (dir : List FileName) (e : String) :
    ∀ ps : List String, ps.Nodup →
      List.Sorted nameLe
        ((ps.flatMap (fun pat => sortByName (dir.filter (fun f => f.ext = pat)))).filter
          (fun f => f.ext = e)) := by
  intro ps
  induction ps with
  | nil =>
    intro _
    simp
  | cons pat rest ih =>
    intro hnd
    rw [List.nodup_cons] at hnd
    rw [List.flatMap_cons, List.filter_append]
    by_cases hpe : pat = e
    · subst hpe
      have h1 : (sortByName (dir.filter (fun f => f.ext = pat))).filter
          (fun f => f.ext = pat) = sortByName (dir.filter (fun f => f.ext = pat)) := by
        apply List.filter_eq_self.mpr
        intro x hx
        rw [mem_sortByName, List.mem_filter] at hx
        exact hx.2
      have h2 : (rest.flatMap
          (fun p => sortByName (dir.filter (fun f => f.ext = p)))).filter
          (fun f => f.ext = pat) = [] := by
        apply List.filter_eq_nil_iff.mpr
        intro x hx
        rw [List.mem_flatMap] at hx
        obtain ⟨q, hq, hxq⟩ := hx
        rw [mem_sortByName, List.mem_filter, decide_eq_true_eq] at hxq
        simp only [decide_eq_true_eq]
        rw [hxq.2]
        intro he
        exact hnd.1 (he ▸ hq)
      rw [h1, h2, List.append_nil]
      exact sorted_sortByName _
    · have h1 : (sortByName (dir.filter (fun f => f.ext = pat))).filter
          (fun f => f.ext = e) = [] := by
        apply List.filter_eq_nil_iff.mpr
        intro x hx
        rw [mem_sortByName, List.mem_filter, decide_eq_true_eq] at hx
        simp only [decide_eq_true_eq]
        rw [hx.2]
        exact hpe
      rw [h1, List.nil_append]
      exact ih hnd.2

lemma sublist_flatMap_group (dir : List FileName) :
    ∀ ps : List String, ps.Nodup →
      ∀ l : List FileName,
        l.Sublist (ps.flatMap (fun pat => sortByName (dir.filter (fun f => f.ext = pat)))) →
          l = ps.flatMap (fun pat => l.filter (fun f => f.ext = pat)) := by
  intro ps
  induction ps with
  | nil =>
    intro _ l hl
    rw [List.flatMap_nil] at hl ⊢
    exact List.sublist_nil.mp hl
  | cons pat rest ih =>
    intro hnd l hl
    rw [List.nodup_cons] at hnd
    rw [List.flatMap_cons] at hl
    obtain ⟨l₁, l₂, rfl, h₁, h₂⟩ := List.sublist_append_iff.mp hl
    rw [List.flatMap_cons]
    have hl₁ : ∀ x ∈ l₁, x.ext = pat := by
      intro x hx
      have hmem := h₁.subset hx
      rw [mem_sortByName, List.mem_filter, decide_eq_true_eq] at hmem
      exact hmem.2
    have hl₂ : ∀ x ∈ l₂, x.ext ≠ pat := by
      intro x hx
      have hmem := h₂.subset hx
      rw [List.mem_flatMap] at hmem
      obtain ⟨q, hq, hxq⟩ := hmem
      rw [mem_sortByName, List.mem_filter, decide_eq_true_eq] at hxq
      rw [hxq.2]
      intro he
      exact hnd.1 (he ▸ hq)
    have e1 : (l₁ ++ l₂).filter (fun f => f.ext = pat) = l₁ := by
      rw [List.filter_append,
        List.filter_eq_self.mpr (fun x hx => by
          simp only [decide_eq_true_eq]; exact hl₁ x hx),
        List.filter_eq_nil_iff.mpr (fun x hx => by
          simp only [decide_eq_true_eq]; exact hl₂ x hx),
        List.append_nil]
    have e2 : rest.flatMap (fun p => (l₁ ++ l₂).filter (fun f => f.ext = p))
        = rest.flatMap (fun p => l₂.filter (fun f => f.ext = p)) := by
      refine List.flatMap_congr ?_
      intro p hp
      rw [List.filter_append,
        List.filter_eq_nil_iff.mpr (fun x hx => by
          simp only [decide_eq_true_eq]
          rw [hl₁ x hx]
          intro he
          exact hnd.1 (he ▸ hp)),
        List.nil_append]
    rw [e1, e2]
    exact congrArg (l₁ ++ ·) (ih hnd.2 l₂ h₂)

lemma imgExts_case_all :
    ∀ e ∈ IMG_EXTS, pyLower e = e ∧ pyLower (pyUpper e) = e := by decide

lemma find_images_sublist_files (extOrder : List String) (dir : List FileName) :
    (find_images extOrder dir).Sublist
      ((globPatterns extOrder).flatMap
        (fun pat => sortByName (dir.filter (fun f => f.ext = pat)))) := by
  rw [← files_eq_patterns]
  unfold find_images
  obtain ⟨l', hl', hsub⟩ := find_images_fold_sublist dir _ [] []
  rw [hl']
  simpa using hsub

end FindImagesLemmas

/-- C9 counterexample: the output order of `find_images` depends on the
iteration order of the `IMG_EXTS` set. On a directory holding `a.png` and
`b.jpg`, iterating the extension set with `.jpg` first yields
`[b.jpg, a.png]`, while the permuted iteration order with `.png` first
yields `[a.png, b.jpg]` — two different orderings of the same set of
extensions on the same directory contents, refuting the claim that the
output order does not depend on the extension-set iteration order. -/
theorem find_images_order_dependent_cex :
    extOrderAlt.Perm IMG_EXTS ∧
    find_images IMG_EXTS demoDir = [⟨"b", ".jpg"⟩, ⟨"a", ".png"⟩] ∧
    find_images extOrderAlt demoDir = [⟨"a", ".png"⟩, ⟨"b", ".jpg"⟩] ∧
    find_images IMG_EXTS demoDir ≠ find_images extOrderAlt demoDir := by decide

/-- C9 (amended): `find_images` is deterministic only relative to a fixed
iteration order of the extension set. For any iteration order (a permutation
of `IMG_EXTS`) and any directory contents: each resolved path appears
exactly once — the output is duplicate-free and contains precisely the
directory entries whose extension equals a supported extension in lower or
upper case; within each extension-case group the output is sorted
alphabetically; and the output is the concatenation of its extension-case
groups in the iteration order of the patterns (lower then upper case per
extension), so the order across groups follows the set's iteration order —
which Python does not fix, so, as the counterexample shows, the output
order does depend on it. -/
theorem find_images_fixed_order_spec (extOrder : List String) (dir : List FileName)
    (hperm : extOrder.Perm IMG_EXTS) :
    (find_images extOrder dir).Nodup ∧
    (∀ f : FileName, f ∈ find_images extOrder dir ↔
      (f ∈ dir ∧ ∃ e ∈ IMG_EXTS, f.ext = e ∨ f.ext = pyUpper e)) ∧
    (∀ e : String, List.Sorted nameLe
      ((find_images extOrder dir).filter (fun f => f.ext = e))) ∧
    find_images extOrder dir
      = (globPatterns extOrder).flatMap
          (fun pat => (find_images extOrder dir).filter (fun f => f.ext = pat)) := by
  have hpatnd := globPatterns_nodup extOrder hperm
  have hsubp := find_images_sublist_files extOrder dir
  refine ⟨?_, ?_, ?_, ?_⟩
  · unfold find_images
    exact (find_images_fold_spec dir _ [] [] rfl List.nodup_nil (by simp)).1
  · intro f
    constructor
    · intro hf
      have hff : f ∈ extOrder.flatMap (fun ext =>
          sortByName (dir.filter (fun f => f.ext = ext)) ++
          sortByName (dir.filter (fun f => f.ext = pyUpper ext))) := by
        rw [files_eq_patterns]
        exact hsubp.subset hf
      obtain ⟨hfd, e, he, hcase⟩ := (mem_files_iff extOrder dir f).mp hff
      exact ⟨hfd, e, hperm.mem_iff.mp he, hcase⟩
    · rintro ⟨hfd, e, he, hcase⟩
      have he' : e ∈ extOrder := hperm.mem_iff.mpr he
      have hff : f ∈ extOrder.flatMap (fun ext =>
          sortByName (dir.filter (fun f => f.ext = ext)) ++
          sortByName (dir.filter (fun f => f.ext = pyUpper ext))) :=
        (mem_files_iff extOrder dir f).mpr ⟨hfd, e, he', hcase⟩
      have hlow : pyLower f.ext ∈ IMG_EXTS := by
        rcases hcase with h | h
        · rw [h, (imgExts_case_all e he).1]
          exact he
        · rw [h, (imgExts_case_all e he).2]
          exact he
      unfold find_images
      exact find_images_fold_complete dir _ [] [] rfl f hff hfd hlow
  · intro e
    have hfil := List.Sublist.filter (fun f => decide (f.ext = e)) hsubp
    have hsor := sorted_filter_patterns dir e (globPatterns extOrder) hpatnd
    exact List.Pairwise.sublist hfil hsor
  · exact sublist_flatMap_group dir (globPatterns extOrder) hpatnd
      (find_images extOrder dir) hsubp

/-- Witness for `find_images_fixed_order_spec` on the two-entry demo
directory with the source-literal iteration order. -/
theorem find_images_fixed_order_spec_witness :
    IMG_EXTS.Perm IMG_EXTS ∧
    ((find_images IMG_EXTS demoDir).Nodup ∧
    (∀ f : FileName, f ∈ find_images IMG_EXTS demoDir ↔
      (f ∈ demoDir ∧ ∃ e ∈ IMG_EXTS, f.ext = e ∨ f.ext = pyUpper e)) ∧
    (∀ e : String, List.Sorted nameLe
      ((find_images IMG_EXTS demoDir).filter (fun f => f.ext = e))) ∧
    find_images IMG_EXTS demoDir
      = (globPatterns IMG_EXTS).flatMap
          (fun pat => (find_images IMG_EXTS demoDir).filter (fun f => f.ext = pat))) :=
  ⟨List.Perm.refl IMG_EXTS,
   find_images_fixed_order_spec IMG_EXTS demoDir (List.Perm.refl IMG_EXTS)⟩

end ContactSheet
